import Mathlib

/-!
Shallow embedding of the `t-digest` crate (files `src/lib.rs` and
`src/online.rs`) for checking its specification.  Rust `f64` values are
modelled as rationals (`ℚ`): every claim under scrutiny is about the
algebraic structure of the computations (which formula is applied, which
branch is taken, how aggregates evolve), not about rounding, and all
claimed properties quantify over non-NaN finite inputs.  The NaN sentinel
that the Rust code stores in `min`/`max` of an empty digest is modelled by
`0`; the code never reads those fields while `count = 0`, which the
embedding mirrors.  Rust `Vec` becomes `List`, in-place mutation becomes
explicit state passing, and the `unimplemented!()` panic in `TDigest::new`
becomes an `Except` error value.
-/

/-- Embeds `struct Centroid` from lib.rs: a mean together with a weight. -/
structure Centroid where
  mean : ℚ
  weight : ℚ
deriving DecidableEq

/-- Embeds `Centroid::default` (mean 0, weight 1). -/
def Centroid.default : Centroid := { mean := 0, weight := 1 }

/-- Embeds `Centroid::add` from lib.rs lines 71-80.  The Rust body is
`sum += weight_ + mean_` followed by `new_weight = weight_ + weight`,
`mean = sum / new_weight`, returning `sum`.  The returned accumulator is
paired with the updated centroid. -/
def Centroid.add (c : Centroid) (sum weight : ℚ) : ℚ × Centroid :=
  let weight_ := c.weight
  let mean_ := c.mean
  let sum' := sum + (weight_ + mean_)
  let new_weight := weight_ + weight
  (sum', { mean := sum' / new_weight, weight := new_weight })

/-- Comparison used by `impl Ord for Centroid`: centroids order by mean. -/
def Centroid.leMean (a b : Centroid) : Prop := a.mean ≤ b.mean

instance : DecidableRel Centroid.leMean :=
  fun a b => inferInstanceAs (Decidable (a.mean ≤ b.mean))

instance : IsTotal Centroid Centroid.leMean :=
  ⟨fun a b => le_total a.mean b.mean⟩

instance : IsTrans Centroid Centroid.leMean :=
  ⟨fun _ _ _ hab hbc => le_trans hab hbc⟩

/-- Embeds `compressed.sort()` (stable sort by mean). -/
def sortCentroids (l : List Centroid) : List Centroid :=
  List.insertionSort Centroid.leMean l

/-- Embeds `struct TDigest` from lib.rs. -/
structure TDigest where
  centroids : List Centroid
  max_size : ℕ
  sum : ℚ
  count : ℚ
  max : ℚ
  min : ℚ
deriving DecidableEq

/-- Embeds `TDigest::new_with_size`.  The Rust code stores NaN sentinels in
`min`/`max`; they are modelled by 0 and are never read while `count = 0`. -/
def TDigest.new_with_size (max_size : ℕ) : TDigest :=
  { centroids := [], max_size := max_size, sum := 0, count := 0, max := 0, min := 0 }

/-- Embeds `impl Default for TDigest` (max_size 100). -/
def TDigest.default : TDigest := TDigest.new_with_size 100

/-- Outcome of the explicit-state constructor: the Rust code either returns a
digest or diverges through a panic.  `unimplemented` stands for the
`unimplemented!()` panic; `invalidArgument` stands for the invalid-argument
error condition that the specification describes. -/
inductive NewError where
  | invalidArgument
  | unimplemented
deriving DecidableEq

/-- Embeds `TDigest::new` from lib.rs lines 115-130: when more centroids than
`max_size` are supplied the Rust code executes `unimplemented!()`, which is
modelled as the `unimplemented` error value. -/
def TDigest.new (centroids : List Centroid) (sum count max min : ℚ)
    (max_size : ℕ) : Except NewError TDigest :=
  if centroids.length ≤ max_size then
    Except.ok { centroids := centroids, max_size := max_size, sum := sum,
                count := count, max := max, min := min }
  else
    Except.error NewError.unimplemented

/-- Embeds `TDigest::k_to_q` from lib.rs lines 189-197. -/
def TDigest.k_to_q (k d : ℚ) : ℚ :=
  let k_div_d := k / d
  if k_div_d ≥ 1/2 then
    let base := 1 - k_div_d
    1 - 2 * base * base
  else
    2 * k_div_d * k_div_d

/-- Embeds `TDigest::clamp` from lib.rs lines 199-207. -/
def TDigest.clamp (v lo hi : ℚ) : ℚ :=
  if v > hi then hi
  else if v < lo then lo
  else v

/-- Embeds the item selection of the merge interleaving (lib.rs lines
245-254 and 262-270): prefer the next old centroid when it is present and
its mean is strictly below the next pending value (or no value is pending);
otherwise take the next value as a fresh weight-1 centroid.  Returns the
chosen centroid together with the remaining centroids and values, or `none`
when both streams are exhausted. -/
def TDigest.pickNext : List Centroid → List ℚ → Option (Centroid × List Centroid × List ℚ)
  | c :: cs', v :: vs' =>
      some (if c.mean < v then (c, cs', v :: vs')
            else ({ mean := v, weight := 1 }, c :: cs', vs'))
  | c :: cs', [] => some (c, cs', [])
  | [], v :: vs' => some ({ mean := v, weight := 1 }, [], vs')
  | [], [] => none

/-- Finalisation of the current group (lib.rs lines 279, 283 and 290-291):
absorb the pending accumulators into `curr`, push it, and add the returned
running sum to `result.sum`. -/
def TDigest.mergeFinish (curr : Centroid) (sums weights : ℚ)
    (compressed : List Centroid) (resultSum : ℚ) : List Centroid × ℚ :=
  let fin := curr.add sums weights
  (compressed ++ [fin.2], resultSum + fin.1)

/-- Embeds the main merge loop of `TDigest::merge_sorted` (lib.rs lines
261-291).  The loop consumes one interleaved item per iteration; `fuel` is
the combined length of the two remaining streams, so with the fuel chosen by
`merge_sorted` the zero-fuel arm is never reached. -/
def TDigest.mergeLoop (maxSize : ℕ) (newCount : ℚ) :
    ℕ → List Centroid → List ℚ → Centroid → ℚ → ℚ → ℚ → ℚ → ℚ →
    List Centroid → ℚ → List Centroid × ℚ
  | 0, _, _, curr, _, sums, weights, _, _, compressed, resultSum =>
      TDigest.mergeFinish curr sums weights compressed resultSum
  | fuel + 1, cs, vs, curr, wsf, sums, weights, kLimit, qLimit, compressed, resultSum =>
      match TDigest.pickNext cs vs with
      | none => TDigest.mergeFinish curr sums weights compressed resultSum
      | some (next, cs', vs') =>
          let nextSum := next.mean * next.weight
          let wsf' := wsf + next.weight
          if wsf' ≤ qLimit then
            TDigest.mergeLoop maxSize newCount fuel cs' vs' curr wsf'
              (sums + nextSum) (weights + next.weight) kLimit qLimit compressed resultSum
          else
            TDigest.mergeLoop maxSize newCount fuel cs' vs' next wsf' 0 0
              (kLimit + 1) (TDigest.k_to_q kLimit (maxSize : ℚ) * newCount)
              (compressed ++ [(curr.add sums weights).2])
              (resultSum + (curr.add sums weights).1)

/-- Embeds `TDigest::merge_sorted` from lib.rs lines 217-297. -/
def TDigest.merge_sorted (self : TDigest) (sorted_values : List ℚ) : TDigest :=
  match sorted_values with
  | [] => self
  | v :: vs' =>
      let newCount := self.count + ((v :: vs').length : ℚ)
      let maybeMin := v
      let maybeMax := (v :: vs').getLast (List.cons_ne_nil v vs')
      let newMin := if 0 < self.count then Min.min self.min maybeMin else maybeMin
      let newMax := if 0 < self.count then Max.max self.max maybeMax else maybeMax
      let qLimit0 := TDigest.k_to_q 1 (self.max_size : ℚ) * newCount
      let init := (TDigest.pickNext self.centroids (v :: vs')).getD
        (Centroid.default, [], [])
      let curr := init.1
      let loopOut := TDigest.mergeLoop self.max_size newCount
        (init.2.1.length + init.2.2.length) init.2.1 init.2.2 curr curr.weight
        0 0 2 qLimit0 [] 0
      { centroids := sortCentroids loopOut.1
        max_size := self.max_size
        sum := loopOut.2
        count := newCount
        max := newMax
        min := newMin }

/-- Embeds `TDigest::merge_unsorted` from lib.rs lines 209-215. -/
def TDigest.merge_unsorted (self : TDigest) (unsorted_values : List ℚ) : TDigest :=
  self.merge_sorted (List.insertionSort (· ≤ ·) unsorted_values)

/-- Embeds the forward location scan of `estimate_quantile` (lib.rs lines
331-341): starting at index `k` with accumulated weight `t`, stop at the
first centroid whose window contains `rank`; if the scan completes, `pos`
keeps its initialisation `dflt` and `t` is the full accumulated weight. -/
def TDigest.scanFwd : List Centroid → ℕ → ℚ → ℚ → ℕ → ℕ × ℚ
  | [], _, _, t, dflt => (dflt, t)
  | c :: rest, k, rank, t, dflt =>
      if rank < t + c.weight then (k, t)
      else TDigest.scanFwd rest (k + 1) rank (t + c.weight) dflt

/-- Embeds the backward location scan of `estimate_quantile` (lib.rs lines
315-325): walk the reversed centroid list, index `k` counting down,
subtracting each weight from `t`; stop as soon as `rank ≥ t`; if the scan
completes, `pos` keeps its initialisation `0`. -/
def TDigest.scanBack : List Centroid → ℕ → ℚ → ℚ → ℕ × ℚ
  | [], _, _, t => (0, t)
  | c :: rest, k, rank, t =>
      let t' := t - c.weight
      if rank ≥ t' then (k, t')
      else TDigest.scanBack rest (k - 1) rank t'

/-- The centroid position and cumulative-weight offset selected by
`estimate_quantile` for a quantile `q` strictly between the early-return
cases. -/
def TDigest.locate (self : TDigest) (q : ℚ) : ℕ × ℚ :=
  let rank := q * self.count
  if q > 1/2 then
    TDigest.scanBack self.centroids.reverse (self.centroids.length - 1) rank self.count
  else
    TDigest.scanFwd self.centroids 0 rank 0 (self.centroids.length - 1)

/-- Indexing into the centroid list, `self.centroids[i]` in the Rust code.
Out-of-bounds access (which would panic in Rust, and never happens on the
positions the scans produce) returns the default centroid. -/
def centroidAt : List Centroid → ℕ → Centroid
  | [], _ => Centroid.default
  | c :: _, 0 => c
  | _ :: l, n + 1 => centroidAt l n

/-- Embeds the interpolation step of `estimate_quantile` (lib.rs lines
344-363): a window and slope from the neighbouring centroid means, then a
linear interpolation clamped into the window.  The located position is
always in bounds when the digest is non-empty. -/
def TDigest.interp (self : TDigest) (pt : ℕ × ℚ) (q : ℚ) : ℚ :=
  let pos := pt.1
  let t := pt.2
  let rank := q * self.count
  let n := self.centroids.length
  let cAt := fun i => centroidAt self.centroids i
  let dmm : ℚ × ℚ × ℚ :=
    if 1 < n then
      if pos = 0 then
        ((cAt 1).mean - (cAt 0).mean, self.min, (cAt 1).mean)
      else if pos = n - 1 then
        ((cAt pos).mean - (cAt (pos - 1)).mean, (cAt (pos - 1)).mean, self.max)
      else
        (((cAt (pos + 1)).mean - (cAt (pos - 1)).mean) / 2,
         (cAt (pos - 1)).mean, (cAt (pos + 1)).mean)
    else (0, self.min, self.max)
  let value := (cAt pos).mean + ((rank - t) / (cAt pos).weight - 1/2) * dmm.1
  TDigest.clamp value dmm.2.1 dmm.2.2

/-- Embeds `TDigest::estimate_quantile` from lib.rs lines 300-364. -/
def TDigest.estimate_quantile (self : TDigest) (q : ℚ) : ℚ :=
  if self.centroids.isEmpty then 0
  else if q > 1/2 then
    if q ≥ 1 then self.max
    else self.interp (self.locate q) q
  else
    if q ≤ 0 then self.min
    else self.interp (self.locate q) q

/-- Total weight of a centroid list. -/
def weightSum (l : List Centroid) : ℚ := (l.map Centroid.weight).sum

/-- Sample non-empty digest used by witnesses. -/
def sampleA : TDigest :=
  { centroids := [{ mean := 1, weight := 1 }, { mean := 3, weight := 1 }],
    max_size := 10, sum := 4, count := 2, max := 4, min := 0 }

/-- C1: the claim states `total_sum = extra_weighted_sum + old_weight*old_mean`;
the code instead computes `extra_weighted_sum + (old_weight + old_mean)`
(lib.rs line 75 adds where the algorithm needs a product).  At the failing
input (mean 10, weight 2, absorb nothing) the code yields total_sum 12 and
mean 6, while the claimed formula yields total_sum 20 and an unchanged
mean 10. -/
theorem centroid_add_code_bug :
    Centroid.add { mean := 10, weight := 2 } 0 0 = (12, { mean := 6, weight := 2 }) ∧
    (Centroid.add { mean := 10, weight := 2 } 0 0).1 ≠ 0 + 2 * 10 := by
  constructor
  · norm_num [Centroid.add]
  · norm_num [Centroid.add]

/-- C2 counterexample: with one centroid and `max_size = 0` the constructor
takes the `unimplemented!()` panic path, which is not the invalid-argument
error condition the claim describes. -/
theorem tdigest_new_not_invalid_argument :
    TDigest.new [Centroid.default] 0 1 0 0 0 = Except.error NewError.unimplemented ∧
    (Except.error NewError.unimplemented : Except NewError TDigest) ≠
      Except.error NewError.invalidArgument := by
  constructor
  · simp [TDigest.new]
  · simp

/-- C2 amended: when `len(centroids) <= max_size` the constructor returns a
digest holding exactly the given fields; when `len(centroids) > max_size` it
crashes through the unimplemented path (not an invalid-argument condition). -/
theorem tdigest_new_unimplemented_on_excess (cs : List Centroid) (s c mx mn : ℚ) (ms : ℕ) :
    (cs.length ≤ ms → TDigest.new cs s c mx mn ms =
      Except.ok { centroids := cs, max_size := ms, sum := s, count := c,
                  max := mx, min := mn }) ∧
    (ms < cs.length → TDigest.new cs s c mx mn ms = Except.error NewError.unimplemented) := by
  refine ⟨fun h => ?_, fun h => ?_⟩
  · rw [TDigest.new, if_pos h]
  · rw [TDigest.new, if_neg (by omega)]

theorem tdigest_new_unimplemented_on_excess_witness :
    ([Centroid.default].length ≤ 1 ∧
      TDigest.new [Centroid.default] 0 1 0 0 1 =
        Except.ok { centroids := [Centroid.default], max_size := 1, sum := 0,
                    count := 1, max := 0, min := 0 }) ∧
    (0 < [Centroid.default].length ∧
      TDigest.new [Centroid.default] 0 1 0 0 0 = Except.error NewError.unimplemented) :=
  ⟨⟨by decide, (tdigest_new_unimplemented_on_excess _ _ _ _ _ _).1 (by decide)⟩,
   ⟨by decide, (tdigest_new_unimplemented_on_excess _ _ _ _ _ _).2 (by decide)⟩⟩

/-- C3: the divisor of the new mean in `Centroid::add` is the post-absorb
weight `old_weight + extra_weight`, and the post-absorb weight is stored; it
is not the pre-absorb weight, which would give a different result. -/
theorem centroid_add_post_absorb_divisor :
    (∀ (c : Centroid) (s w : ℚ),
        ((c.add s w).2).weight = c.weight + w ∧
        ((c.add s w).2).mean = (c.add s w).1 / (c.weight + w)) ∧
    ¬ (∀ (c : Centroid) (s w : ℚ),
        ((c.add s w).2).mean = (c.add s w).1 / c.weight) := by
  constructor
  · exact fun c s w => ⟨rfl, rfl⟩
  · intro h
    have h1 := h { mean := 0, weight := 1 } 0 1
    norm_num [Centroid.add] at h1

/-- C6: merging an empty batch returns the digest unchanged. -/
theorem merge_sorted_empty_identity (d : TDigest) : d.merge_sorted [] = d := rfl

/-- C7: merging a non-empty sorted batch sets the new count to the old count
plus the batch length; min and max combine the old values with the batch's
first and last elements when the old count is positive, and come solely from
the batch when the old count is zero. -/
theorem merge_sorted_count_min_max (d : TDigest) (vs : List ℚ) (h : vs ≠ [])
    (hs : vs.Sorted (· ≤ ·)) :
    (d.merge_sorted vs).count = d.count + vs.length ∧
    (d.merge_sorted vs).min =
      (if 0 < d.count then Min.min d.min (vs.head h) else vs.head h) ∧
    (d.merge_sorted vs).max =
      (if 0 < d.count then Max.max d.max (vs.getLast h) else vs.getLast h) := by
  match vs, h with
  | v :: vs', _ => exact ⟨rfl, rfl, rfl⟩

theorem merge_sorted_count_min_max_witness :
    (([1, 2] : List ℚ) ≠ [] ∧ ([1, 2] : List ℚ).Sorted (· ≤ ·)) ∧
    ((sampleA.merge_sorted [1, 2]).count = sampleA.count + ([1, 2] : List ℚ).length ∧
      (sampleA.merge_sorted [1, 2]).min =
        (if 0 < sampleA.count then Min.min sampleA.min (([1, 2] : List ℚ).head (by simp))
         else ([1, 2] : List ℚ).head (by simp)) ∧
      (sampleA.merge_sorted [1, 2]).max =
        (if 0 < sampleA.count then Max.max sampleA.max (([1, 2] : List ℚ).getLast (by simp))
         else ([1, 2] : List ℚ).getLast (by simp))) :=
  ⟨⟨by simp, by norm_num [List.sorted_cons]⟩,
   merge_sorted_count_min_max sampleA [1, 2] (by simp) (by norm_num [List.sorted_cons])⟩

/-- C8: the quantile estimate of an empty digest is 0 for every quantile; for
a non-empty digest, quantiles at or below 0 return the digest's min field and
quantiles at or above 1 return its max field. -/
theorem estimate_quantile_edge_cases (d : TDigest) :
    (d.centroids = [] → ∀ q : ℚ, d.estimate_quantile q = 0) ∧
    (d.centroids ≠ [] → ∀ q : ℚ,
      (q ≤ 0 → d.estimate_quantile q = d.min) ∧
      (1 ≤ q → d.estimate_quantile q = d.max)) := by
  constructor
  · intro h q
    simp [TDigest.estimate_quantile, h]
  · intro h q
    constructor
    · intro hq
      have h1 : ¬ (q > 1/2) := not_lt.mpr (le_trans hq (by norm_num))
      unfold TDigest.estimate_quantile
      split_ifs <;> first
        | rfl
        | exact absurd (List.isEmpty_iff.mp (by assumption)) h
        | exact absurd (by assumption) h1
        | exact absurd hq (by assumption)
    · intro hq
      have h1 : q > 1/2 := lt_of_lt_of_le (by norm_num) hq
      have h2 : q ≥ 1 := hq
      unfold TDigest.estimate_quantile
      split_ifs <;> first
        | rfl
        | exact absurd (List.isEmpty_iff.mp (by assumption)) h
        | exact absurd h1 (by assumption)
        | exact absurd h2 (by assumption)
        | exact absurd hq (by assumption)

theorem estimate_quantile_edge_cases_witness :
    ((TDigest.new_with_size 3).centroids = [] ∧
      (TDigest.new_with_size 3).estimate_quantile (1/3) = 0) ∧
    (sampleA.centroids ≠ [] ∧
      ((-1 : ℚ) ≤ 0 ∧ sampleA.estimate_quantile (-1) = sampleA.min) ∧
      ((1 : ℚ) ≤ 2 ∧ sampleA.estimate_quantile 2 = sampleA.max)) :=
  ⟨⟨rfl, (estimate_quantile_edge_cases (TDigest.new_with_size 3)).1 rfl (1/3)⟩,
   ⟨by simp [sampleA],
    ⟨by norm_num, ((estimate_quantile_edge_cases sampleA).2 (by simp [sampleA]) (-1)).1 (by norm_num)⟩,
    ⟨by norm_num, ((estimate_quantile_edge_cases sampleA).2 (by simp [sampleA]) 2).2 (by norm_num)⟩⟩⟩

@[simp] theorem weightSum_nil : weightSum [] = 0 := rfl

@[simp] theorem weightSum_cons (c : Centroid) (l : List Centroid) :
    weightSum (c :: l) = c.weight + weightSum l := by
  simp [weightSum]

@[simp] theorem weightSum_append (l1 l2 : List Centroid) :
    weightSum (l1 ++ l2) = weightSum l1 + weightSum l2 := by
  simp [weightSum]

@[simp] theorem Centroid.add_snd_weight (c : Centroid) (s w : ℚ) :
    ((c.add s w).2).weight = c.weight + w := rfl

/-- One interleaving step preserves total weight (a value enters as a
weight-1 centroid) and consumes exactly one item. -/
theorem pickNext_spec (cs : List Centroid) (vs : List ℚ)
    (next : Centroid) (cs' : List Centroid) (vs' : List ℚ)
    (h : TDigest.pickNext cs vs = some (next, cs', vs')) :
    next.weight + weightSum cs' + (vs'.length : ℚ) = weightSum cs + (vs.length : ℚ) ∧
    cs'.length + vs'.length + 1 = cs.length + vs.length := by
  cases cs with
  | nil =>
    cases vs with
    | nil => simp [TDigest.pickNext] at h
    | cons v vs0 =>
      simp only [TDigest.pickNext, Option.some.injEq, Prod.mk.injEq] at h
      obtain ⟨h1, h2, h3⟩ := h
      subst h1; subst h2; subst h3
      constructor <;>
        simp only [weightSum_cons, weightSum_nil, List.length_cons, List.length_nil] <;>
        push_cast <;> first | ring | omega
  | cons c cs0 =>
    cases vs with
    | nil =>
      simp only [TDigest.pickNext, Option.some.injEq, Prod.mk.injEq] at h
      obtain ⟨h1, h2, h3⟩ := h
      subst h1; subst h2; subst h3
      constructor <;>
        simp only [weightSum_cons, weightSum_nil, List.length_cons, List.length_nil] <;>
        push_cast <;> first | ring | omega
    | cons v vs0 =>
      simp only [TDigest.pickNext, Option.some.injEq] at h
      by_cases hc : c.mean < v
      · rw [if_pos hc] at h
        simp only [Prod.mk.injEq] at h
        obtain ⟨h1, h2, h3⟩ := h
        subst h1; subst h2; subst h3
        constructor <;>
          simp only [weightSum_cons, weightSum_nil, List.length_cons, List.length_nil] <;>
          push_cast <;> first | ring | omega
      · rw [if_neg hc] at h
        simp only [Prod.mk.injEq] at h
        obtain ⟨h1, h2, h3⟩ := h
        subst h1; subst h2; subst h3
        constructor <;>
          simp only [weightSum_cons, weightSum_nil, List.length_cons, List.length_nil] <;>
          push_cast <;> first | ring | omega

theorem pickNext_none (cs : List Centroid) (vs : List ℚ)
    (h : TDigest.pickNext cs vs = none) : cs = [] ∧ vs = [] := by
  cases cs <;> cases vs <;> simp [TDigest.pickNext] at h ⊢

/-- The merge loop's output weight: everything pending (current group,
accumulator, both remaining streams) ends up in the compressed list. -/
theorem mergeLoop_weightSum (ms : ℕ) (nc : ℚ) (fuel : ℕ) :
    ∀ (cs : List Centroid) (vs : List ℚ) curr wsf sums weights kL qL comp rs,
      cs.length + vs.length ≤ fuel →
      weightSum (TDigest.mergeLoop ms nc fuel cs vs curr wsf sums weights kL qL comp rs).1
        = weightSum comp + curr.weight + weights + weightSum cs + (vs.length : ℚ) := by
  induction fuel with
  | zero =>
    intro cs vs curr wsf sums weights kL qL comp rs hlen
    have hcs : cs = [] := by
      cases cs with
      | nil => rfl
      | cons a l => simp at hlen
    have hvs : vs = [] := by
      cases vs with
      | nil => rfl
      | cons a l => rw [hcs] at hlen; simp at hlen
    subst hcs; subst hvs
    simp [TDigest.mergeLoop, TDigest.mergeFinish]
    ring
  | succ fuel ih =>
    intro cs vs curr wsf sums weights kL qL comp rs hlen
    cases hp : TDigest.pickNext cs vs with
    | none =>
      obtain ⟨hcs, hvs⟩ := pickNext_none cs vs hp
      subst hcs; subst hvs
      simp [TDigest.mergeLoop, TDigest.pickNext, TDigest.mergeFinish]
      ring
    | some r =>
      obtain ⟨next, cs', vs'⟩ := r
      have hs := pickNext_spec cs vs next cs' vs' hp
      have hlen' : cs'.length + vs'.length ≤ fuel := by
        have := hs.2
        omega
      simp only [TDigest.mergeLoop, hp]
      split_ifs with hcond
      · rw [ih cs' vs' curr (wsf + next.weight) (sums + next.mean * next.weight)
          (weights + next.weight) kL qL comp rs hlen']
        have h1 := hs.1
        linarith
      · rw [ih cs' vs' next (wsf + next.weight) 0 0 (kL + 1)
          (TDigest.k_to_q kL (ms : ℚ) * nc)
          (comp ++ [(curr.add sums weights).2]) (rs + (curr.add sums weights).1) hlen']
        have h1 := hs.1
        simp
        linarith

/-- Sorting the compressed list does not change its total weight. -/
theorem weightSum_sortCentroids (l : List Centroid) :
    weightSum (sortCentroids l) = weightSum l := by
  unfold weightSum sortCentroids
  exact ((List.perm_insertionSort Centroid.leMean l).map Centroid.weight).sum_eq

/-- A non-empty value stream always yields a first item. -/
theorem pickNext_cons_some (cs : List Centroid) (v : ℚ) (vs0 : List ℚ) :
    ∃ r, TDigest.pickNext cs (v :: vs0) = some r := by
  cases cs <;> simp [TDigest.pickNext]

/-- Merging adds exactly the batch size to the total centroid weight. -/
theorem merge_sorted_weightSum (d : TDigest) (vs : List ℚ) :
    weightSum (d.merge_sorted vs).centroids = weightSum d.centroids + (vs.length : ℚ) := by
  cases vs with
  | nil => simp [TDigest.merge_sorted]
  | cons v vs0 =>
    obtain ⟨r, hr⟩ := pickNext_cons_some d.centroids v vs0
    obtain ⟨next, cs', vs'⟩ := r
    have hs := pickNext_spec d.centroids (v :: vs0) next cs' vs' hr
    simp only [TDigest.merge_sorted, hr, Option.getD_some]
    rw [weightSum_sortCentroids]
    have key := mergeLoop_weightSum d.max_size (d.count + ((v :: vs0).length : ℚ))
      (cs'.length + vs'.length) cs' vs' next next.weight 0 0 2
      (TDigest.k_to_q 1 (d.max_size : ℚ) * (d.count + ((v :: vs0).length : ℚ)))
      [] 0 le_rfl
    rw [key]
    have h1 := hs.1
    simp only [weightSum_nil] at h1 ⊢
    push_cast at h1 ⊢
    linarith

/-- Digests reachable from an empty digest through the merge operations, the
sorted entry point being fed sorted batches as its contract assumes. -/
inductive ReachableDigest : TDigest → Prop where
  | empty (max_size : ℕ) : ReachableDigest (TDigest.new_with_size max_size)
  | merge_sorted {d : TDigest} (vs : List ℚ) (hd : ReachableDigest d)
      (hs : vs.Sorted (· ≤ ·)) : ReachableDigest (d.merge_sorted vs)
  | merge_unsorted {d : TDigest} (vs : List ℚ) (hd : ReachableDigest d) :
      ReachableDigest (d.merge_unsorted vs)

/-- One merge keeps the two digest invariants: the output centroid list is
sorted by mean (the code sorts it), and its total weight equals the updated
count (weights only move between groups, never get lost). -/
theorem merge_sorted_invariants (d : TDigest) (vs : List ℚ)
    (h1 : d.centroids.Sorted Centroid.leMean)
    (h2 : weightSum d.centroids = d.count) :
    ((d.merge_sorted vs).centroids).Sorted Centroid.leMean ∧
    weightSum (d.merge_sorted vs).centroids = (d.merge_sorted vs).count := by
  cases vs with
  | nil =>
    constructor
    · exact h1
    · exact h2
  | cons v vs0 =>
    constructor
    · exact List.sorted_insertionSort Centroid.leMean _
    · rw [merge_sorted_weightSum, h2]
      rfl

/-- C4: every digest built from an empty digest purely through the merge
operations has its centroids sorted ascending by mean, and the total
centroid weight equals the count field. -/
theorem reachable_digest_sorted_weight_sum (d : TDigest) (h : ReachableDigest d) :
    d.centroids.Sorted Centroid.leMean ∧ weightSum d.centroids = d.count := by
  induction h with
  | empty ms => exact ⟨List.sorted_nil, rfl⟩
  | merge_sorted vs hd hs ih => exact merge_sorted_invariants _ vs ih.1 ih.2
  | merge_unsorted vs hd ih => exact merge_sorted_invariants _ _ ih.1 ih.2

theorem reachable_digest_sorted_weight_sum_witness :
    ((TDigest.new_with_size 4).merge_sorted [1, 2]).centroids.Sorted Centroid.leMean ∧
    weightSum ((TDigest.new_with_size 4).merge_sorted [1, 2]).centroids =
      ((TDigest.new_with_size 4).merge_sorted [1, 2]).count :=
  reachable_digest_sorted_weight_sum _
    (ReachableDigest.merge_sorted [1, 2] (ReachableDigest.empty 4)
      (by norm_num [List.sorted_cons]))

/-- C5 counterexample: a digest built by a single merge of the sorted batch
0, 1, 2, 100 into an empty digest of max_size 100, with quantiles
q1 = 49/100 and q2 = 1/2, violates monotonicity: the estimate at q1 is
123/50 = 2.46 while the estimate at q2 is 2.  (At q2 the forward scan moves
to the next centroid, whose interpolation window ends far to the right, and
the interpolated value falls below the window and clamps to its lower
bound.) -/
theorem estimate_quantile_not_monotone :
    ReachableDigest ((TDigest.new_with_size 100).merge_sorted [0, 1, 2, 100]) ∧
    (0 : ℚ) ≤ 49/100 ∧ (49/100 : ℚ) ≤ 1/2 ∧ (1/2 : ℚ) ≤ 1 ∧
    ¬ (((TDigest.new_with_size 100).merge_sorted [0, 1, 2, 100]).estimate_quantile (49/100) ≤
        ((TDigest.new_with_size 100).merge_sorted [0, 1, 2, 100]).estimate_quantile (1/2)) := by
  have hd : (TDigest.new_with_size 100).merge_sorted [0, 1, 2, 100] =
      { centroids := [{ mean := 1, weight := 1 }, { mean := 2, weight := 1 },
                      { mean := 3, weight := 1 }, { mean := 101, weight := 1 }],
        max_size := 100, sum := 107, count := 4, max := 100, min := 0 } := by
    norm_num [TDigest.merge_sorted, TDigest.mergeLoop, TDigest.pickNext,
      TDigest.k_to_q, TDigest.mergeFinish, Centroid.add, sortCentroids,
      List.insertionSort, List.orderedInsert, TDigest.new_with_size,
      Centroid.default, Centroid.leMean, List.getLast]
  refine ⟨ReachableDigest.merge_sorted _ (ReachableDigest.empty 100)
      (by norm_num [List.sorted_cons]),
    by norm_num, by norm_num, by norm_num, ?_⟩
  rw [hd]
  have h1 : ({ centroids := [{ mean := 1, weight := 1 }, { mean := 2, weight := 1 },
                 { mean := 3, weight := 1 }, { mean := 101, weight := 1 }],
               max_size := 100, sum := 107, count := 4, max := 100,
               min := 0 } : TDigest).estimate_quantile (49/100) = 123/50 := by
    norm_num [TDigest.estimate_quantile, TDigest.locate, TDigest.scanFwd,
      TDigest.scanBack, TDigest.interp, TDigest.clamp, Centroid.default, centroidAt]
  have h2 : ({ centroids := [{ mean := 1, weight := 1 }, { mean := 2, weight := 1 },
                 { mean := 3, weight := 1 }, { mean := 101, weight := 1 }],
               max_size := 100, sum := 107, count := 4, max := 100,
               min := 0 } : TDigest).estimate_quantile (1/2) = 2 := by
    norm_num [TDigest.estimate_quantile, TDigest.locate, TDigest.scanFwd,
      TDigest.scanBack, TDigest.interp, TDigest.clamp, Centroid.default, centroidAt]
  rw [h1, h2]
  norm_num

theorem scanFwd_fst_lt (l : List Centroid) (k : ℕ) (rank t : ℚ) (dflt n : ℕ)
    (hk : k + l.length ≤ n) (hd : dflt < n) :
    (TDigest.scanFwd l k rank t dflt).1 < n := by
  induction l generalizing k t with
  | nil => exact hd
  | cons c rest ih =>
    simp only [TDigest.scanFwd]
    split_ifs
    · simp only [List.length_cons] at hk
      omega
    · exact ih (k + 1) (t + c.weight) (by simp only [List.length_cons] at hk; omega)

theorem scanBack_fst_le (l : List Centroid) (k : ℕ) (rank t : ℚ) :
    (TDigest.scanBack l k rank t).1 ≤ k := by
  induction l generalizing k t with
  | nil => exact Nat.zero_le k
  | cons c rest ih =>
    simp only [TDigest.scanBack]
    split_ifs
    · exact le_rfl
    · exact le_trans (ih (k - 1) (t - c.weight)) (Nat.sub_le k 1)

/-- The position selected by either scan is in bounds for a non-empty
centroid list. -/
theorem locate_fst_lt (d : TDigest) (q : ℚ) (h : d.centroids ≠ []) :
    (d.locate q).1 < d.centroids.length := by
  have hn : 0 < d.centroids.length := List.length_pos.mpr h
  unfold TDigest.locate
  split_ifs
  · exact lt_of_le_of_lt
      (scanBack_fst_le d.centroids.reverse (d.centroids.length - 1) (q * d.count) d.count)
      (by omega)
  · exact scanFwd_fst_lt d.centroids 0 (q * d.count) 0 (d.centroids.length - 1)
      d.centroids.length (by omega) (by omega)

theorem centroidAt_eq_get (l : List Centroid) (i : ℕ) (h : i < l.length) :
    centroidAt l i = l.get ⟨i, h⟩ := by
  induction l generalizing i with
  | nil => simp at h
  | cons c rest ih =>
    cases i with
    | zero => rfl
    | succ j => exact ih j (by simpa using h)

theorem centroidAt_mem (l : List Centroid) (i : ℕ) (h : i < l.length) :
    centroidAt l i ∈ l := by
  rw [centroidAt_eq_get l i h]
  exact List.get_mem l i h

theorem sorted_centroidAt_mono (l : List Centroid) (hs : l.Sorted Centroid.leMean)
    (i j : ℕ) (hij : i ≤ j) (hj : j < l.length) :
    (centroidAt l i).mean ≤ (centroidAt l j).mean := by
  rcases Nat.lt_or_ge i j with hlt | hge
  · rw [centroidAt_eq_get l i (lt_trans hlt hj), centroidAt_eq_get l j hj]
    exact hs.rel_get_of_lt hlt
  · have : i = j := le_antisymm hij hge
    subst this
    exact le_rfl

theorem clamp_mono (v1 v2 lo hi : ℚ) (hlh : lo ≤ hi) (h : v1 ≤ v2) :
    TDigest.clamp v1 lo hi ≤ TDigest.clamp v2 lo hi := by
  unfold TDigest.clamp
  split_ifs <;> linarith

theorem interpValue_mono (m w t δ r1 r2 : ℚ) (hw : 0 < w) (hδ : 0 ≤ δ)
    (hr : r1 ≤ r2) :
    m + ((r1 - t) / w - 1/2) * δ ≤ m + ((r2 - t) / w - 1/2) * δ := by
  have key : (m + ((r2 - t) / w - 1/2) * δ) - (m + ((r1 - t) / w - 1/2) * δ)
      = ((r2 - r1) / w) * δ := by
    field_simp
    ring
  have h2 : 0 ≤ ((r2 - r1) / w) * δ :=
    mul_nonneg (div_nonneg (by linarith) hw.le) hδ
  linarith

/-- For a fixed located position and offset, the interpolation step is
non-decreasing in the quantile (given a sorted centroid list with positive
weights, centroid means inside the digest's min-max range, and a
non-negative count). -/
theorem interp_mono (d : TDigest) (pos : ℕ) (t q1 q2 : ℚ)
    (hsort : d.centroids.Sorted Centroid.leMean)
    (hw : ∀ c ∈ d.centroids, 0 < c.weight)
    (hmin : ∀ c ∈ d.centroids, d.min ≤ c.mean)
    (hmax : ∀ c ∈ d.centroids, c.mean ≤ d.max)
    (hcount : 0 ≤ d.count) (hne : d.centroids ≠ [])
    (hpos : pos < d.centroids.length)
    (h12 : q1 ≤ q2) :
    d.interp (pos, t) q1 ≤ d.interp (pos, t) q2 := by
  have hrank : q1 * d.count ≤ q2 * d.count := mul_le_mul_of_nonneg_right h12 hcount
  have hwpos : 0 < (centroidAt d.centroids pos).weight :=
    hw _ (centroidAt_mem _ _ hpos)
  simp only [TDigest.interp]
  split_ifs with h1 h2 h3 <;> simp only [Prod.fst, Prod.snd]
  · subst h2
    apply clamp_mono
    · exact hmin _ (centroidAt_mem _ 1 h1)
    · apply interpValue_mono _ _ _ _ _ _ hwpos _ hrank
      have := sorted_centroidAt_mono d.centroids hsort 0 1 (by omega) h1
      linarith
  · apply clamp_mono
    · exact hmax _ (centroidAt_mem _ (pos - 1) (by omega))
    · apply interpValue_mono _ _ _ _ _ _ hwpos _ hrank
      have := sorted_centroidAt_mono d.centroids hsort (pos - 1) pos (by omega) hpos
      linarith
  · have hp1 : pos + 1 < d.centroids.length := by omega
    apply clamp_mono
    · exact sorted_centroidAt_mono d.centroids hsort (pos - 1) (pos + 1) (by omega) hp1
    · apply interpValue_mono _ _ _ _ _ _ hwpos _ hrank
      have := sorted_centroidAt_mono d.centroids hsort (pos - 1) (pos + 1) (by omega) hp1
      linarith
  · obtain ⟨c, hcmem⟩ := List.exists_mem_of_ne_nil d.centroids hne
    apply clamp_mono
    · exact le_trans (hmin c hcmem) (hmax c hcmem)
    · exact interpValue_mono _ _ _ _ _ _ hwpos le_rfl hrank

/-- Away from the early-return cases, the quantile estimate is the
interpolation at the located position. -/
theorem estimate_eq_interp (d : TDigest) (q : ℚ) (hne : d.centroids ≠ [])
    (h0 : 0 < q) (h1 : q < 1) :
    d.estimate_quantile q = d.interp (d.locate q) q := by
  have hni : d.centroids.isEmpty = false := by
    cases hcc : d.centroids with
    | nil => exact absurd hcc hne
    | cons a l => rfl
  unfold TDigest.estimate_quantile
  rw [hni]
  simp only [Bool.false_eq_true, if_false]
  split_ifs with ha hb hc2
  · exact absurd hb (not_le.mpr h1)
  · rfl
  · exact absurd hc2 (not_le.mpr h0)
  · rfl

/-- C5 amended: on any digest with centroids sorted by mean, positive
centroid weights, centroid means inside the digest's min-max range and a
non-negative count, the quantile estimate is non-decreasing between two
quantiles in (0, 1) that the location scan resolves to the same centroid
position and offset.  Full monotonicity in q fails, see the
counterexample. -/
theorem estimate_quantile_monotone_same_position (d : TDigest) (q1 q2 : ℚ)
    (hsort : d.centroids.Sorted Centroid.leMean)
    (hw : ∀ c ∈ d.centroids, 0 < c.weight)
    (hmin : ∀ c ∈ d.centroids, d.min ≤ c.mean)
    (hmax : ∀ c ∈ d.centroids, c.mean ≤ d.max)
    (hcount : 0 ≤ d.count)
    (h0 : 0 < q1) (h12 : q1 ≤ q2) (h1 : q2 < 1)
    (hloc : d.locate q1 = d.locate q2) :
    d.estimate_quantile q1 ≤ d.estimate_quantile q2 := by
  by_cases hne : d.centroids = []
  · have e1 : d.estimate_quantile q1 = 0 := by simp [TDigest.estimate_quantile, hne]
    have e2 : d.estimate_quantile q2 = 0 := by simp [TDigest.estimate_quantile, hne]
    rw [e1, e2]
  · rw [estimate_eq_interp d q1 hne h0 (lt_of_le_of_lt h12 h1),
        estimate_eq_interp d q2 hne (lt_of_lt_of_le h0 h12) h1, hloc]
    have hpos : (d.locate q2).1 < d.centroids.length := locate_fst_lt d q2 hne
    rcases hl2 : d.locate q2 with ⟨pos, t⟩
    rw [hl2] at hpos
    exact interp_mono d pos t q1 q2 hsort hw hmin hmax hcount hne hpos h12

theorem estimate_quantile_monotone_same_position_witness :
    (sampleA.centroids.Sorted Centroid.leMean ∧
      (∀ c ∈ sampleA.centroids, 0 < c.weight) ∧
      (∀ c ∈ sampleA.centroids, sampleA.min ≤ c.mean) ∧
      (∀ c ∈ sampleA.centroids, c.mean ≤ sampleA.max) ∧
      (0 : ℚ) ≤ sampleA.count ∧
      (0 : ℚ) < 1/8 ∧ (1/8 : ℚ) ≤ 1/4 ∧ (1/4 : ℚ) < 1 ∧
      sampleA.locate (1/8) = sampleA.locate (1/4)) ∧
    sampleA.estimate_quantile (1/8) ≤ sampleA.estimate_quantile (1/4) :=
  ⟨⟨by norm_num [sampleA, List.sorted_cons, Centroid.leMean],
    by norm_num [sampleA], by norm_num [sampleA], by norm_num [sampleA],
    by norm_num [sampleA], by norm_num, by norm_num, by norm_num,
    by norm_num [sampleA, TDigest.locate, TDigest.scanFwd]⟩,
   estimate_quantile_monotone_same_position sampleA (1/8) (1/4)
     (by norm_num [sampleA, List.sorted_cons, Centroid.leMean])
     (by norm_num [sampleA]) (by norm_num [sampleA]) (by norm_num [sampleA])
     (by norm_num [sampleA]) (by norm_num) (by norm_num) (by norm_num)
     (by norm_num [sampleA, TDigest.locate, TDigest.scanFwd])⟩

/-- Embeds `struct State` from online.rs lines 32-37: the digest held so
far, the 32-slot amortisation buffer and the buffer length `i`.  The mutex
wrapping of `OnlineTdigest` serialises operations, so the sequential state
transition functions below model every public operation. -/
structure State where
  current : TDigest
  amortized_observations : Fin 32 → ℚ
  i : ℕ

/-- Embeds `Default for State`: default digest, zeroed buffer, i = 0. -/
def State.default : State :=
  { current := TDigest.default, amortized_observations := fun _ => 0, i := 0 }

/-- Embeds `flush_state` from online.rs lines 118-127: merge the first `i`
buffered values into the digest through the unsorted path and reset `i`. -/
def flush_state (s : State) : State :=
  if s.i < 1 then s
  else
    { current := s.current.merge_unsorted
        ((List.ofFn s.amortized_observations).take s.i)
      amortized_observations := s.amortized_observations
      i := 0 }

/-- Embeds `record_observation` from online.rs lines 108-115: write at index
`i`, increment `i`, flush when the buffer became full.  The Rust buffer
write panics when the index is out of bounds; the embedding returns `none`
in that case. -/
def record_observation (s : State) (v : ℚ) : Option State :=
  if h : s.i < 32 then
    let s1 : State :=
      { s with
        amortized_observations := Function.update s.amortized_observations ⟨s.i, h⟩ v,
        i := s.i + 1 }
    some (if s1.i = 32 then flush_state s1 else s1)
  else
    none

/-- Embeds `get_snapshot` from online.rs lines 102-105: flush, then return a
copy of the digest; the post-call wrapper state is the flushed state. -/
def get_snapshot (s : State) : TDigest × State :=
  let s1 := flush_state s
  (s1.current, s1)

/-- Embeds `get_snapshot_and_reset` (online.rs lines 95-99), which is also
the body of `OnlineTdigest::reset`: flush, return the digest, and replace
the held digest with a default one. -/
def get_snapshot_and_reset (s : State) : TDigest × State :=
  let s1 := flush_state s
  (s1.current, { s1 with current := TDigest.default })

/-- Fold of `record_observation` over a list of observations: the effect of
n consecutive observe calls. -/
def observeN : State → List ℚ → Option State
  | s, [] => some s
  | s, v :: vs =>
      match record_observation s v with
      | none => none
      | some s1 => observeN s1 vs

/-- Counting through the sort inside `merge_unsorted`: the count grows by
the batch length. -/
theorem merge_unsorted_count (d : TDigest) (vs : List ℚ) :
    (d.merge_unsorted vs).count = d.count + (vs.length : ℚ) := by
  have hlen : (List.insertionSort (· ≤ ·) vs).length = vs.length :=
    (List.perm_insertionSort (· ≤ ·) vs).length_eq
  unfold TDigest.merge_unsorted
  cases hs : List.insertionSort (· ≤ ·) vs with
  | nil =>
    rw [hs] at hlen
    simp [TDigest.merge_sorted, ← hlen]
  | cons w ws =>
    rw [hs] at hlen
    show d.count + (((w :: ws).length : ℕ) : ℚ) = d.count + (vs.length : ℚ)
    rw [hlen]

/-- Writing at slot `i` extends the buffered prefix by the written value. -/
theorem take_update_ofFn (f : Fin 32 → ℚ) (i : ℕ) (h : i < 32) (v : ℚ) :
    (List.ofFn (Function.update f ⟨i, h⟩ v)).take (i + 1)
      = (List.ofFn f).take i ++ [v] := by
  apply List.ext_getElem
  · simp
    omega
  · intro j h1 h2
    have hj32 : j < 32 := by simp at h1; omega
    have hji : j < i + 1 := by simp at h1; omega
    rw [List.getElem_take, List.getElem_ofFn]
    rw [List.getElem_append]
    by_cases hj : j < i
    · rw [dif_pos (by simp; omega)]
      rw [List.getElem_take, List.getElem_ofFn]
      rw [Function.update_apply]
      rw [if_neg (by simp; omega)]
    · have hje : j = i := by omega
      subst hje
      rw [dif_neg (by simp)]
      rw [Function.update_apply]
      rw [if_pos (by simp)]
      simp

/-- Effect of a run of observes on any state with a non-full buffer: the
values stream through the buffer; each time it fills, 32 of them are merged
into the digest, so the count grows by 32 per flush and the last
`(i + n) mod 32` values remain buffered. -/
theorem observeN_spec (vs : List ℚ) : ∀ (s : State), s.i < 32 →
    ∃ t, observeN s vs = some t ∧
      t.i = (s.i + vs.length) % 32 ∧
      t.current.count = s.current.count + ((32 * ((s.i + vs.length) / 32) : ℕ) : ℚ) ∧
      (List.ofFn t.amortized_observations).take t.i
        = ((List.ofFn s.amortized_observations).take s.i ++ vs).drop
            (32 * ((s.i + vs.length) / 32)) := by
  induction vs with
  | nil =>
    intro s hs
    have h0 : (s.i + ([] : List ℚ).length) / 32 = 0 := by
      simp only [List.length_nil]
      omega
    refine ⟨s, rfl, ?_, ?_, ?_⟩
    · simp only [List.length_nil]
      omega
    · rw [h0]
      simp
    · rw [h0]
      simp only [Nat.mul_zero, List.drop_zero, List.append_nil]
  | cons v vs ih =>
    intro s hs
    by_cases hfull : s.i + 1 = 32
    · -- the buffer fills: the write is followed by a flush of all 32 slots
      have hrec : record_observation s v = some (flush_state
          { s with
            amortized_observations := Function.update s.amortized_observations ⟨s.i, hs⟩ v,
            i := s.i + 1 }) := by
        simp [record_observation, hs, hfull]
      set sW : State :=
        { s with
          amortized_observations := Function.update s.amortized_observations ⟨s.i, hs⟩ v,
          i := s.i + 1 } with hsW
      have hflush : flush_state sW =
          { current := sW.current.merge_unsorted
              ((List.ofFn sW.amortized_observations).take sW.i),
            amortized_observations := sW.amortized_observations,
            i := 0 } := by
        unfold flush_state
        rw [if_neg (by simp only [hsW]; omega)]
      have hiF : (flush_state sW).i = 0 := by rw [hflush]
      obtain ⟨t, ht, hti, htc, htb⟩ := ih (flush_state sW) (by rw [hiF]; omega)
      refine ⟨t, ?_, ?_, ?_, ?_⟩
      · simp only [observeN, hrec]
        exact ht
      · rw [hti, hiF]
        simp only [List.length_cons]
        omega
      · rw [htc, hiF]
        have hcF : (flush_state sW).current.count = s.current.count + 32 := by
          rw [hflush]
          show (sW.current.merge_unsorted _).count = _
          rw [merge_unsorted_count]
          have hlen : ((List.ofFn sW.amortized_observations).take sW.i).length = 32 := by
            simp only [hsW, List.length_take, List.length_ofFn]
            omega
          rw [hlen]
          simp only [hsW]
          norm_num
        rw [hcF]
        have harith : 32 * ((s.i + (v :: vs).length) / 32)
            = 32 + 32 * ((0 + vs.length) / 32) := by
          simp only [List.length_cons]
          omega
        rw [harith]
        push_cast
        ring
      · rw [htb, hiF]
        simp only [List.take_zero, List.nil_append]
        have hsplit : (List.ofFn s.amortized_observations).take s.i ++ v :: vs
            = ((List.ofFn s.amortized_observations).take s.i ++ [v]) ++ vs := by
          simp
        rw [hsplit]
        have hlenP : ((List.ofFn s.amortized_observations).take s.i ++ [v]).length = 32 := by
          simp only [List.length_append, List.length_take, List.length_ofFn,
            List.length_cons, List.length_nil]
          omega
        have harith2 : 32 * ((s.i + (v :: vs).length) / 32)
            = ((List.ofFn s.amortized_observations).take s.i ++ [v]).length
              + 32 * ((0 + vs.length) / 32) := by
          rw [hlenP]
          simp only [List.length_cons]
          omega
        rw [harith2, List.drop_append]
    · -- the buffer does not fill: the write lands and the index advances
      have hrec : record_observation s v = some
          { s with
            amortized_observations := Function.update s.amortized_observations ⟨s.i, hs⟩ v,
            i := s.i + 1 } := by
        simp [record_observation, hs, hfull]
      set sW : State :=
        { s with
          amortized_observations := Function.update s.amortized_observations ⟨s.i, hs⟩ v,
          i := s.i + 1 } with hsW
      obtain ⟨t, ht, hti, htc, htb⟩ := ih sW (by simp only [hsW]; omega)
      refine ⟨t, ?_, ?_, ?_, ?_⟩
      · simp only [observeN, hrec]
        exact ht
      · rw [hti]
        simp only [hsW, List.length_cons]
        omega
      · rw [htc]
        simp only [hsW]
        have harith : 32 * ((s.i + 1 + vs.length) / 32)
            = 32 * ((s.i + (v :: vs).length) / 32) := by
          simp only [List.length_cons]
          omega
        rw [harith]
      · rw [htb]
        simp only [hsW]
        rw [take_update_ofFn s.amortized_observations s.i hs v]
        have hsplit : (List.ofFn s.amortized_observations).take s.i ++ v :: vs
            = ((List.ofFn s.amortized_observations).take s.i ++ [v]) ++ vs := by
          simp
        rw [hsplit]
        have harith : 32 * ((s.i + 1 + vs.length) / 32)
            = 32 * ((s.i + (v :: vs).length) / 32) := by
          simp only [List.length_cons]
          omega
        rw [harith]

/-- C9: observe writes the value at the current index and advances the
length; when the buffer thereby reaches 32 entries it flushes all 32 values
into the digest via the unsorted merge path and resets the length; hence
after n observes on a fresh wrapper the digest count is 32*floor(n/32) and
the buffer holds the remaining n mod 32 values. -/
theorem observe_buffer_and_flush :
    (∀ (s : State) (v : ℚ) (h : s.i < 32),
      ∃ t, record_observation s v = some t ∧
        t.amortized_observations ⟨s.i, h⟩ = v ∧
        t.i = (if s.i + 1 = 32 then 0 else s.i + 1) ∧
        (s.i + 1 = 32 → t.current = s.current.merge_unsorted
          ((List.ofFn t.amortized_observations).take 32)) ∧
        (s.i + 1 < 32 → t.current = s.current)) ∧
    (∀ vs : List ℚ,
      ∃ t, observeN State.default vs = some t ∧
        t.current.count = ((32 * (vs.length / 32) : ℕ) : ℚ) ∧
        t.i = vs.length % 32 ∧
        (List.ofFn t.amortized_observations).take t.i
          = vs.drop (32 * (vs.length / 32))) := by
  constructor
  · intro s v h
    set sW : State :=
      { s with
        amortized_observations := Function.update s.amortized_observations ⟨s.i, h⟩ v,
        i := s.i + 1 } with hsW
    by_cases hfull : s.i + 1 = 32
    · have hrec : record_observation s v = some (flush_state sW) := by
        simp [record_observation, h, hfull, hsW]
      have hflush : flush_state sW =
          { current := sW.current.merge_unsorted
              ((List.ofFn sW.amortized_observations).take sW.i),
            amortized_observations := sW.amortized_observations,
            i := 0 } := by
        unfold flush_state
        rw [if_neg (by simp only [hsW]; omega)]
      refine ⟨flush_state sW, hrec, ?_, ?_, ?_, ?_⟩
      · rw [hflush]
        show Function.update s.amortized_observations ⟨s.i, h⟩ v ⟨s.i, h⟩ = v
        simp
      · rw [hflush, if_pos hfull]
      · intro _
        rw [hflush]
        show sW.current.merge_unsorted ((List.ofFn sW.amortized_observations).take sW.i)
          = s.current.merge_unsorted ((List.ofFn sW.amortized_observations).take 32)
        have : sW.i = 32 := by simp only [hsW]; omega
        rw [this]
      · intro hlt
        omega
    · have hrec : record_observation s v = some sW := by
        simp [record_observation, h, hfull, hsW]
      refine ⟨sW, hrec, ?_, ?_, ?_, ?_⟩
      · show Function.update s.amortized_observations ⟨s.i, h⟩ v ⟨s.i, h⟩ = v
        simp
      · rw [if_neg hfull]
      · intro hc
        exact absurd hc hfull
      · intro _
        rfl
  · intro vs
    obtain ⟨t, ht, hti, htc, htb⟩ := observeN_spec vs State.default (by norm_num [State.default])
    refine ⟨t, ht, ?_, ?_, ?_⟩
    · rw [htc]
      simp only [State.default, TDigest.default, TDigest.new_with_size, Nat.zero_add, zero_add]
    · rw [hti]
      simp only [State.default, Nat.zero_add]
    · rw [htb]
      simp only [State.default, Nat.zero_add, List.take_zero, List.nil_append]

theorem observe_buffer_and_flush_witness :
    (State.default.i < 32 ∧
      (∃ t, record_observation State.default 5 = some t ∧
        t.amortized_observations ⟨State.default.i, by norm_num [State.default]⟩ = 5 ∧
        t.i = (if State.default.i + 1 = 32 then 0 else State.default.i + 1) ∧
        (State.default.i + 1 = 32 → t.current = State.default.current.merge_unsorted
          ((List.ofFn t.amortized_observations).take 32)) ∧
        (State.default.i + 1 < 32 → t.current = State.default.current))) ∧
    (∃ t, observeN State.default [1, 2, 3] = some t ∧
      t.current.count = ((32 * (([1, 2, 3] : List ℚ).length / 32) : ℕ) : ℚ) ∧
      t.i = ([1, 2, 3] : List ℚ).length % 32 ∧
      (List.ofFn t.amortized_observations).take t.i
        = ([1, 2, 3] : List ℚ).drop (32 * (([1, 2, 3] : List ℚ).length / 32))) :=
  ⟨⟨by norm_num [State.default],
    observe_buffer_and_flush.1 State.default 5 (by norm_num [State.default])⟩,
   observe_buffer_and_flush.2 [1, 2, 3]⟩

theorem record_observation_i_le (s t : State) (v : ℚ)
    (h : record_observation s v = some t) (hs : s.i ≤ 31) : t.i ≤ 31 := by
  unfold record_observation at h
  rw [dif_pos (by omega)] at h
  simp only [Option.some.injEq] at h
  split at h
  · subst h
    rename_i hc
    unfold flush_state
    rw [if_neg (show ¬ (s.i + 1 < 1) by omega)]
    show (0 : ℕ) ≤ 31
    omega
  · subst h
    rename_i hc
    show s.i + 1 ≤ 31
    omega

theorem flush_state_i_le (s : State) : (flush_state s).i ≤ s.i := by
  unfold flush_state
  split_ifs
  · exact le_rfl
  · exact Nat.zero_le s.i

/-- Wrapper states reachable through the public operations observe,
observe_mut, get, get_mut, reset and reset_mut (the mut variants perform the
same state transition without locking). -/
inductive WReachable : State → Prop where
  | init : WReachable State.default
  | observe {s t : State} (v : ℚ) (hs : WReachable s)
      (h : record_observation s v = some t) : WReachable t
  | get {s : State} (hs : WReachable s) : WReachable (get_snapshot s).2
  | reset {s : State} (hs : WReachable s) : WReachable (get_snapshot_and_reset s).2

/-- C10: after every public wrapper operation the buffer index is at most
31, so the buffer write performed by the next observe is in bounds and never
panics (never returns the panic value `none`). -/
theorem wrapper_index_in_bounds (s : State) (h : WReachable s) :
    s.i ≤ 31 ∧ ∀ v : ℚ, (record_observation s v).isSome := by
  have main : s.i ≤ 31 := by
    induction h with
    | init => norm_num [State.default]
    | observe v hs hrec ih => exact record_observation_i_le _ _ _ hrec ih
    | get hs ih =>
      show (flush_state _).i ≤ 31
      exact le_trans (flush_state_i_le _) ih
    | reset hs ih =>
      show (flush_state _).i ≤ 31
      exact le_trans (flush_state_i_le _) ih
  refine ⟨main, fun v => ?_⟩
  unfold record_observation
  rw [dif_pos (by omega)]
  rfl

theorem wrapper_index_in_bounds_witness :
    State.default.i ≤ 31 ∧ (record_observation State.default 7).isSome :=
  ⟨(wrapper_index_in_bounds State.default WReachable.init).1,
   (wrapper_index_in_bounds State.default WReachable.init).2 7⟩
